import Mathlib

/-!
Verification development for the PDF ingestion and embedding pipeline
(`scripts/ingest-pdfs.mjs`): content-hash based embedding cache, text
chunking with overlap, retry/backoff with provider failover, and index
assembly.  Texts are modelled as `List Char`, file bytes as `List Nat`,
embedding vectors as `List Int`.  I/O-performing collaborators (SHA-256,
PDF text extraction, the remote embedding call) are abstracted as
function parameters; everything else is translated directly from the
source.
-/

namespace Ingest

/-- Embedding vector, as returned by a provider (`res.data[i].embedding`). -/
def Vec : Type := List Int

instance : DecidableEq Vec := by unfold Vec; infer_instance

/-- Raw file bytes (argument of `sha256` and `extractPdfText`). -/
def Bytes : Type := List Nat

/-- Predicate for the characters removed by `cleanText`: carriage returns
and NUL characters. -/
def isStripped (c : Char) : Bool :=
  c = '\r' || c = Char.ofNat 0

/-- Translation of `cleanText` (source lines 39-41):
`text.replace(/\r/g, "").replace(/\u0000/g, "").trim()`.
The JS `trim` removes leading and trailing whitespace; we use
`Char.isWhitespace` for the whitespace class. -/
def cleanText (text : List Char) : List Char :=
  let stripped := text.filter (fun c => !(isStripped c))
  ((stripped.dropWhile Char.isWhitespace).reverse.dropWhile Char.isWhitespace).reverse

/-- Loop body of `chunkText` (source lines 42-51), written with explicit
fuel so that it is structurally recursive and kernel-evaluable.  `step`
is `size - overlap` (the JS `i += size - overlap`).  Each iteration with
`i < text.length` emits `text.slice(i, i + size)`, i.e.
`(text.drop i).take size`, then advances `i` by `step`.  For `0 < step`
the loop makes at most `text.length` iterations, so any fuel above
`text.length` computes the exact JS result (`chunkTextGo_fuel_irrel`). -/
def chunkTextGo (text : List Char) (size step : Nat) : Nat → Nat → List (List Char)
  | 0, _ => []
  | fuel + 1, i =>
    if i < text.length then
      (text.drop i).take size :: chunkTextGo text size step fuel (i + step)
    else []

/-- Translation of `chunkText(text, size, overlap)` (source lines 42-51),
for the in-contract case `overlap < size` (the source has no guard for
`overlap >= size`; that degenerate case, where the JS loop never
terminates, is modelled separately by `chunkTextFuel`). -/
def chunkText (text : List Char) (size overlap : Nat) : List (List Char) :=
  chunkTextGo text size (size - overlap) (text.length + 1) 0

/-- Step-indexed interpreter of the `chunkText` loop: `none` means the
loop has not finished within `fuel` iterations.  Used to reason about
the degenerate configuration `overlap >= size`, where the JS loop never
terminates (offset does not advance). -/
def chunkTextFuel (text : List Char) (size overlap : Nat) : Nat → Nat → Option (List (List Char))
  | 0, _ => none
  | fuel + 1, i =>
    if i < text.length then
      match chunkTextFuel text size overlap fuel (i + (size - overlap)) with
      | none => none
      | some rest => some ((text.drop i).take size :: rest)
    else some []

/-- Modelled from the spec: reassembly of chunk texts "with overlaps
removed" — chunk 0 is kept whole and every subsequent chunk is stripped
of its first `overlap` characters. -/
def reconstruct (overlap : Nat) : List (List Char) → List Char
  | [] => []
  | c :: rest => c ++ (rest.map (fun p => p.drop overlap)).flatten

/-- Modelled from the spec: the claimed chunk-count formula
`ceil(max(L - O, 0) / (S - O))` (natural subtraction already clamps
`L - O` at 0). -/
def specChunkCount (L S O : Nat) : Nat :=
  (L - O + (S - O) - 1) / (S - O)

section ChunkLemmas

variable {text : List Char} {size step : Nat}

theorem chunkTextGo_stop {fuel i : Nat} (h : text.length ≤ i) :
    chunkTextGo text size step fuel i = [] := by
  cases fuel with
  | zero => rfl
  | succ f => simp [chunkTextGo, Nat.not_lt.mpr h]

theorem chunkTextGo_fuel_irrel (hstep : 0 < step) :
    ∀ fuel₁ fuel₂ i, text.length - i < fuel₁ → text.length - i < fuel₂ →
      chunkTextGo text size step fuel₁ i = chunkTextGo text size step fuel₂ i := by
  intro fuel₁
  induction fuel₁ with
  | zero => intro fuel₂ i h₁ h₂; omega
  | succ f ih =>
    intro fuel₂ i h₁ h₂
    by_cases hi : i < text.length
    · cases fuel₂ with
      | zero => omega
      | succ f₂ =>
        simp only [chunkTextGo, hi, if_true]
        rw [ih f₂ (i + step) (by omega) (by omega)]
    · rw [chunkTextGo_stop (Nat.not_lt.mp hi), chunkTextGo_stop (Nat.not_lt.mp hi)]

theorem chunkTextGo_getElem (hstep : 0 < step) :
    ∀ fuel i, text.length - i < fuel → ∀ k,
      (chunkTextGo text size step fuel i)[k]? =
        if i + k * step < text.length
        then some ((text.drop (i + k * step)).take size)
        else none := by
  intro fuel
  induction fuel with
  | zero => intro i h; omega
  | succ f ih =>
    intro i h k
    by_cases hi : i < text.length
    · simp only [chunkTextGo, hi, if_true]
      cases k with
      | zero => simp [hi]
      | succ k' =>
        have := ih (i + step) (by omega) k'
        simp only [List.getElem?_cons_succ, this]
        have harith : i + step + k' * step = i + (k' + 1) * step := by ring
        rw [harith]
    · have hle := Nat.not_lt.mp hi
      rw [chunkTextGo_stop hle]
      have : ¬ i + k * step < text.length := by omega
      simp [this]

theorem chunkTextGo_length (hstep : 0 < step) :
    ∀ fuel i, text.length - i < fuel →
      (chunkTextGo text size step fuel i).length =
        (text.length - i + step - 1) / step := by
  intro fuel
  induction fuel with
  | zero => intro i h; omega
  | succ f ih =>
    intro i h
    by_cases hi : i < text.length
    · simp only [chunkTextGo, hi, if_true, List.length_cons]
      rw [ih (i + step) (by omega)]
      rcases Nat.lt_or_ge (i + step) text.length with hlt | hge
      · -- more than one iteration remains
        have h₁ : text.length - (i + step) + step - 1 = text.length - i - 1 := by omega
        have h₂ : text.length - i + step - 1 = (text.length - i - 1) + step := by omega
        rw [h₁, h₂, Nat.add_div_right _ hstep]
      · -- the current chunk is the last one
        have h₁ : text.length - (i + step) = 0 := by omega
        rw [h₁]
        have h₂ : (0 + step - 1) / step = 0 := Nat.div_eq_of_lt (by omega)
        rw [h₂]
        have hlo : 1 * step ≤ text.length - i + step - 1 := by omega
        have hhi : text.length - i + step - 1 < (1 + 1) * step := by omega
        have := Nat.div_eq_of_lt_le hlo hhi
        omega
    · have hle := Nat.not_lt.mp hi
      rw [chunkTextGo_stop hle]
      have h₁ : text.length - i = 0 := by omega
      rw [h₁]
      have h₂ : (step - 1) / step = 0 := Nat.div_eq_of_lt (by omega)
      simp [h₂]

theorem chunkTextGo_mem {text : List Char} {size step : Nat}
    (hsize : 0 < size) :
    ∀ fuel i c, c ∈ chunkTextGo text size step fuel i → c ≠ [] ∧ c.length ≤ size := by
  intro fuel
  induction fuel with
  | zero => intro i c hc; simp [chunkTextGo] at hc
  | succ f ih =>
    intro i c hc
    by_cases hi : i < text.length
    · simp only [chunkTextGo, hi, if_true, List.mem_cons] at hc
      rcases hc with rfl | hc
      · have hlen : ((text.drop i).take size).length = min size (text.length - i) := by
          simp [List.length_take]
        constructor
        · intro hnil
          rw [hnil] at hlen
          simp at hlen
          omega
        · omega
      · exact ih (i + step) c hc
    · rw [chunkTextGo_stop (Nat.not_lt.mp hi)] at hc
      simp at hc

theorem chunkTextGo_reconstruct {text : List Char} {S O : Nat} (h : O < S) :
    ∀ fuel i, text.length - i < fuel →
      ((chunkTextGo text S (S - O) fuel i).map (fun p => p.drop O)).flatten =
        text.drop (i + O) := by
  intro fuel
  induction fuel with
  | zero => intro i hf; omega
  | succ f ih =>
    intro i hf
    by_cases hi : i < text.length
    · simp only [chunkTextGo, hi, if_true, List.map_cons, List.flatten_cons]
      rw [ih (i + (S - O)) (by omega)]
      have h1 : ((text.drop i).take S).drop O = (text.drop (i + O)).take (S - O) := by
        rw [List.drop_take, List.drop_drop]
      have h2 : text.drop (i + (S - O) + O) = (text.drop (i + O)).drop (S - O) := by
        rw [List.drop_drop]
        congr 1
        omega
      rw [h1, h2]
      exact List.take_append_drop (S - O) (text.drop (i + O))
    · rw [chunkTextGo_stop (Nat.not_lt.mp hi)]
      have : text.length ≤ i + O := by omega
      simp [List.drop_eq_nil_of_le this]

theorem chunkTextFuel_eq_go {text : List Char} {S O : Nat} (h : O < S) :
    ∀ fuel i, text.length - i < fuel →
      chunkTextFuel text S O fuel i = some (chunkTextGo text S (S - O) fuel i) := by
  intro fuel
  induction fuel with
  | zero => intro i hf; omega
  | succ f ih =>
    intro i hf
    by_cases hi : i < text.length
    · simp only [chunkTextFuel, chunkTextGo, hi, if_true]
      rw [ih (i + (S - O)) (by omega)]
    · simp only [chunkTextFuel, chunkTextGo, hi, if_false]

/-- Text used as a literal example: 2500 characters, all pairwise-distinct
in each window of 90. -/
def exampleText : List Char :=
  (List.range 2500).map (fun n => Char.ofNat (32 + n % 90))

theorem chunkText_eq_nil_iff {text : List Char} {S O : Nat} :
    chunkText text S O = [] ↔ text = [] := by
  cases text with
  | nil => simp [chunkText, chunkTextGo]
  | cons t ts =>
    simp only [chunkText]
    constructor
    · intro he
      exfalso
      have hpos : (0:Nat) < (t :: ts).length := by simp
      simp [chunkTextGo, hpos] at he
    · intro he
      simp at he

end ChunkLemmas

/-- C3: for every text and every chunkSize `S` and overlap `O` with
`O < S`, chunk `k` of `chunkText` is `text[k*(S-O) : k*(S-O)+S]`, and
concatenating chunk 0 with each subsequent chunk stripped of its first
`O` characters reconstructs the original input text exactly. -/
theorem chunkText_formula_coverage (text : List Char) (S O : Nat) (h : O < S) :
    (∀ k, (chunkText text S O)[k]? =
        if k * (S - O) < text.length
        then some ((text.drop (k * (S - O))).take S)
        else none)
    ∧ reconstruct O (chunkText text S O) = text := by
  have hstep : 0 < S - O := by omega
  constructor
  · intro k
    have := @chunkTextGo_getElem text S (S - O) hstep
      (text.length + 1) 0 (by omega) k
    simpa using this
  · show reconstruct O (chunkTextGo text S (S - O) (text.length + 1) 0) = text
    rcases Nat.eq_zero_or_pos text.length with h0 | hpos
    · have he : text = [] := List.length_eq_zero.mp h0
      subst he
      rfl
    · have h1 : chunkTextGo text S (S - O) (text.length + 1) 0 =
          (text.drop 0).take S :: chunkTextGo text S (S - O) text.length (0 + (S - O)) := by
        simp [chunkTextGo, hpos]
      rw [h1]
      simp only [reconstruct]
      rw [chunkTextGo_reconstruct h text.length (0 + (S - O)) (by omega)]
      have e : 0 + (S - O) + O = S := by omega
      rw [e]
      simp [List.take_append_drop]

/-- C3 witness: coverage at a concrete 7-character text with chunk size 5
and overlap 2. -/
theorem chunkText_formula_coverage_witness :
    reconstruct 2 (chunkText ['a', 'b', 'c', 'd', 'e', 'f', 'g'] 5 2) =
      ['a', 'b', 'c', 'd', 'e', 'f', 'g'] :=
  (chunkText_formula_coverage ['a', 'b', 'c', 'd', 'e', 'f', 'g'] 5 2 (by decide)).2

/-- C4 counterexample: for a 5-character text with chunk size 10 and
overlap 9 the code produces 5 chunks (offsets 0,1,2,3,4), while the
spec formula `ceil(max(L - O, 0) / (S - O))` gives 0 (and even a
"+1 for a final partial chunk" reading would give 1, not 5). -/
theorem chunkText_count_spec_formula_cex :
    (chunkText (List.replicate 5 'a') 10 9).length = 5 ∧ specChunkCount 5 10 9 = 0 := by
  constructor <;> rfl

/-- C4 (amended): for every text of length `L`, chunk size `S`, overlap
`O` with `O < S`, the number of chunks equals `ceil(L / (S - O))`
(written `(L + (S-O) - 1) / (S-O)` in natural division), not
`ceil(max(L - O, 0) / (S - O))`; and for the literal example
`L = 2500, S = 1200, O = 200` the output is exactly the three chunks at
offsets 0, 1000, 2000, the last of length 500. -/
theorem chunkText_count_eq_ceil (text : List Char) (S O : Nat) (h : O < S) :
    (chunkText text S O).length = (text.length + (S - O) - 1) / (S - O)
    ∧ chunkText exampleText 1200 200 =
        [exampleText.take 1200, (exampleText.drop 1000).take 1200,
          (exampleText.drop 2000).take 1200]
    ∧ ((exampleText.drop 2000).take 1200).length = 500 := by
  have hstep : 0 < S - O := by omega
  have hexlen : exampleText.length = 2500 := by simp [exampleText]
  refine ⟨?_, ?_, ?_⟩
  · have := @chunkTextGo_length text S (S - O) hstep (text.length + 1) 0 (by omega)
    simpa using this
  · apply List.ext_getElem?
    intro k
    have hget := @chunkTextGo_getElem exampleText 1200 (1200 - 200)
      (by omega) (exampleText.length + 1) 0 (by omega) k
    show (chunkTextGo exampleText 1200 (1200 - 200) (exampleText.length + 1) 0)[k]? = _
    rw [hget]
    match k with
    | 0 =>
      rw [if_pos (by rw [hexlen]; norm_num)]
      simp
    | 1 =>
      rw [if_pos (by rw [hexlen]; norm_num)]
      norm_num
    | 2 =>
      rw [if_pos (by rw [hexlen]; norm_num)]
      norm_num
    | n + 3 =>
      rw [if_neg (by rw [hexlen]; omega)]
      simp
  · simp [List.length_take, List.length_drop, hexlen]

/-- C4 witness: the amended count formula evaluated at the literal
example text (2500 characters, chunk size 1200, overlap 200) gives 3. -/
theorem chunkText_count_eq_ceil_witness :
    (chunkText exampleText 1200 200).length =
      (exampleText.length + (1200 - 200) - 1) / (1200 - 200) :=
  (chunkText_count_eq_ceil exampleText 1200 200 (by decide)).1

/-- C8: at the degenerate configuration `overlap >= chunkSize` the
`chunkText` loop never terminates (the step-indexed interpreter returns
`none` for every fuel at chunk size 1, overlap 1, text "a") — the source
has no fail-fast `ConfigurationError` guard; and whenever
`overlap < chunkSize` the loop does terminate: with any sufficient fuel
the interpreter completes with exactly the chunks of `chunkText`. -/
theorem chunkText_degenerate_loop :
    (∀ fuel : Nat, chunkTextFuel ['a'] 1 1 fuel 0 = none)
    ∧ (∀ (text : List Char) (S O fuel : Nat), O < S → text.length < fuel →
        chunkTextFuel text S O fuel 0 = some (chunkText text S O)) := by
  constructor
  · intro fuel
    induction fuel with
    | zero => rfl
    | succ f ih => simp [chunkTextFuel, ih]
  · intro text S O fuel h hf
    rw [chunkTextFuel_eq_go h fuel 0 (by omega)]
    rw [chunkText]
    rw [chunkTextGo_fuel_irrel (by omega) fuel (text.length + 1) 0 (by omega) (by omega)]

/-- C8 witness: with overlap 1 < chunk size 2 and fuel 3 the interpreter
terminates on the 2-character text "ab" and agrees with `chunkText`. -/
theorem chunkText_degenerate_loop_witness :
    chunkTextFuel ['a', 'b'] 2 1 3 0 = some (chunkText ['a', 'b'] 2 1) :=
  chunkText_degenerate_loop.2 ['a', 'b'] 2 1 3 (by decide) (by decide)

/-- C10: for every `chunkSize >= 1` and `overlap < chunkSize`,
`chunkText` returns the empty sequence iff the input text is empty, and
every emitted chunk is a non-empty string of length at most
`chunkSize`. -/
theorem chunkText_nil_iff_and_bounds (text : List Char) (S O : Nat) (h : O < S) :
    (chunkText text S O = [] ↔ text = [])
    ∧ ∀ c ∈ chunkText text S O, c ≠ [] ∧ c.length ≤ S := by
  constructor
  · exact chunkText_eq_nil_iff
  · intro c hc
    exact @chunkTextGo_mem text S (S - O) (by omega) (text.length + 1) 0 c hc

/-- C10 witness: at text "abc", chunk size 2, overlap 1, the empty-iff
holds and all chunks are non-empty of length at most 2. -/
theorem chunkText_nil_iff_and_bounds_witness :
    chunkText ['a', 'b', 'c'] 2 1 = [] ↔ (['a', 'b', 'c'] : List Char) = [] :=
  (chunkText_nil_iff_and_bounds ['a', 'b', 'c'] 2 1 (by decide)).1

/-! Retry with exponential backoff (`embedWithRetries`, source lines
109-134). -/

/-- Default configuration values (source lines 30-33). -/
def CHUNK_SIZE : Nat := 1200

/-- Default chunk overlap (source line 31). -/
def CHUNK_OVERLAP : Nat := 200

/-- Default embedding batch size (source line 32). -/
def BATCH_SIZE : Nat := 16

/-- Default maximum retry attempts (source line 33). -/
def MAX_RETRIES : Nat := 6

/-- Error thrown by a provider call.  `status` collapses
`err?.status || err?.response?.status`, `code` collapses
`err?.code || err?.error?.code` (source lines 116-117). -/
structure ProviderError where
  status : Option Nat
  code : Option String
deriving DecidableEq

/-- Translation of the transient-failure test (source lines 118-119):
`status === 429 || (status >= 500 && status < 600) || code === "insufficient_quota"`
(in JS a comparison against an undefined status is false). -/
def retriable (e : ProviderError) : Bool :=
  e.status == some 429 ||
  (match e.status with
   | some s => decide (500 ≤ s) && decide (s < 600)
   | none => false) ||
  e.code == some "insufficient_quota"

/-- Result of one `embedWithRetries` run: success with the vectors, the
provider error rethrown, or the unreachable post-loop
`Error("Embedding retries exhausted")` (source line 133, reachable only
when `MAX_RETRIES < 1`). -/
inductive EmbedOutcome
  | ok (vecs : List Vec)
  | err (e : ProviderError)
  | exhausted
deriving DecidableEq

/-- Instrumented result of `embedWithRetries`: its outcome, the number
of provider calls made, and the list of waits performed (each
`delay + jitter`). -/
structure RetryResult where
  outcome : EmbedOutcome
  attempts : Nat
  waits : List Nat
deriving DecidableEq

/-- Loop body of `embedWithRetries` (source lines 111-131).  `attempt`
is the 1-based loop counter, `delay` the current backoff delay,
`remaining` the number of loop iterations left
(`maxRetries + 1 - attempt`, used as structural fuel).  On an error the
source rethrows when `!retriable || attempt === MAX_RETRIES`, otherwise
waits `delay + jitter(attempt)` (jitter is `Math.floor(Math.random()*250)`,
modelled by the function `jitter`) and doubles the delay, capping it at
20000. -/
def embedRetriesGo (provider : Nat → Except ProviderError (List Vec)) (maxRetries : Nat)
    (jitter : Nat → Nat) : Nat → Nat → Nat → RetryResult
  | attempt, _, 0 => { outcome := .exhausted, attempts := attempt - 1, waits := [] }
  | attempt, delay, remaining + 1 =>
    match provider attempt with
    | .ok v => { outcome := .ok v, attempts := attempt, waits := [] }
    | .error e =>
      if retriable e = true ∧ attempt ≠ maxRetries then
        let r := embedRetriesGo provider maxRetries jitter
          (attempt + 1) (min (delay * 2) 20000) remaining
        { outcome := r.outcome, attempts := r.attempts,
          waits := (delay + jitter attempt) :: r.waits }
      else { outcome := .err e, attempts := attempt, waits := [] }

/-- Translation of `embedWithRetries(client, model, inputs)` (source
lines 109-134): the provider call `client.embeddings.create` at the
k-th attempt is abstracted as `provider k`; the loop starts at
`attempt = 1` with `delay = 1000`. -/
def embedWithRetries (provider : Nat → Except ProviderError (List Vec)) (maxRetries : Nat)
    (jitter : Nat → Nat) : RetryResult :=
  embedRetriesGo provider maxRetries jitter 1 1000 maxRetries

section RetryLemmas

variable {p : Nat → Except ProviderError (List Vec)} {M : Nat} {j : Nat → Nat}

theorem embedRetriesGo_attempts_le :
    ∀ r a d, 1 ≤ a → (embedRetriesGo p M j a d r).attempts + 1 ≤ a + r := by
  intro r
  induction r with
  | zero =>
    intro a d ha
    simp only [embedRetriesGo]
    omega
  | succ r' ih =>
    intro a d ha
    cases hp : p a with
    | ok v =>
      simp only [embedRetriesGo, hp]
      omega
    | error e =>
      by_cases hc : retriable e = true ∧ a ≠ M
      · simp only [embedRetriesGo, hp, if_pos hc]
        have := ih (a + 1) (min (d * 2) 20000) (by omega)
        omega
      · simp only [embedRetriesGo, hp, if_neg hc]
        omega

theorem min_double_pow (d k : Nat) :
    min (min (d * 2) 20000 * 2 ^ k) 20000 = min (d * 2 ^ (k + 1)) 20000 := by
  rcases Nat.le_total (d * 2) 20000 with h | h
  · rw [Nat.min_eq_left h]
    congr 1
    ring
  · rw [Nat.min_eq_right h]
    have hpow : (0:Nat) < 2 ^ k := Nat.pos_pow_of_pos k (by omega)
    have h1 : (20000 : Nat) ≤ 20000 * 2 ^ k := Nat.le_mul_of_pos_right _ hpow
    rw [Nat.min_eq_right h1]
    have h2 : (20000 : Nat) ≤ d * 2 ^ (k + 1) := by
      calc (20000 : Nat) ≤ d * 2 := h
        _ ≤ d * 2 ^ (k + 1) := by
            have : (2:Nat) ≤ 2 ^ (k + 1) := by
              calc (2:Nat) = 2 ^ 1 := by ring
                _ ≤ 2 ^ (k + 1) := Nat.pow_le_pow_right (by omega) (by omega)
            exact Nat.mul_le_mul_left d this
    rw [Nat.min_eq_right h2]

theorem embedRetriesGo_waits_get :
    ∀ r a d, d ≤ 20000 → ∀ k, k < (embedRetriesGo p M j a d r).waits.length →
      (embedRetriesGo p M j a d r).waits[k]? =
        some (min (d * 2 ^ k) 20000 + j (a + k)) := by
  intro r
  induction r with
  | zero => intro a d hd k hk; simp [embedRetriesGo] at hk
  | succ r' ih =>
    intro a d hd k hk
    cases hp : p a with
    | ok v => simp [embedRetriesGo, hp] at hk
    | error e =>
      by_cases hc : retriable e = true ∧ a ≠ M
      · simp only [embedRetriesGo, hp, if_pos hc] at hk ⊢
        cases k with
        | zero =>
          simp [Nat.min_eq_left hd]
        | succ k' =>
          simp only [List.length_cons] at hk
          have hk' : k' < (embedRetriesGo p M j (a + 1) (min (d * 2) 20000) r').waits.length := by
            omega
          have hih := ih (a + 1) (min (d * 2) 20000) (Nat.min_le_right _ _) k' hk'
          simp only [List.getElem?_cons_succ]
          rw [hih, min_double_pow]
          have e1 : a + 1 + k' = a + (k' + 1) := by omega
          rw [e1]
      · simp [embedRetriesGo, hp, if_neg hc] at hk

theorem embedRetriesGo_transient
    (hp : ∀ n, ∃ e, p n = .error e ∧ retriable e = true) :
    ∀ r a d, a + r = M + 1 → 1 ≤ r →
      (embedRetriesGo p M j a d r).attempts = M ∧
      ∃ e, p M = .error e ∧ (embedRetriesGo p M j a d r).outcome = .err e := by
  intro r
  induction r with
  | zero => intro a d h1 h2; omega
  | succ r' ih =>
    intro a d hinv hr
    obtain ⟨e, he, hre⟩ := hp a
    rcases Nat.eq_zero_or_pos r' with rfl | hr'
    · have ha : a = M := by omega
      subst ha
      simp only [embedRetriesGo, he]
      rw [if_neg (by simp)]
      exact ⟨rfl, e, by simp [he], rfl⟩
    · have hne : a ≠ M := by omega
      simp only [embedRetriesGo, he]
      rw [if_pos ⟨hre, hne⟩]
      have := ih (a + 1) (min (d * 2) 20000) (by omega) (by omega)
      simpa using this

end RetryLemmas

/-- C5: `embedWithRetries` makes at most `maxRetries` attempts; a
non-transient failure at any attempt is rethrown immediately, with no
further attempts and no waiting; every wait equals
`min(1000 * 2^k, 20000) + jitter` with jitter strictly below 250; and
an always-transiently-failing provider makes exactly `maxRetries`
attempts and then raises the last provider error. -/
theorem embedWithRetries_policy (p : Nat → Except ProviderError (List Vec))
    (M : Nat) (j : Nat → Nat) (hM : 1 ≤ M) (hj : ∀ n, j n < 250) :
    (embedWithRetries p M j).attempts ≤ M
    ∧ (∀ a d r e, 1 ≤ r → p a = .error e → retriable e = false →
        embedRetriesGo p M j a d r = { outcome := .err e, attempts := a, waits := [] })
    ∧ (∀ k w, (embedWithRetries p M j).waits[k]? = some w →
        min (1000 * 2 ^ k) 20000 ≤ w ∧ w < min (1000 * 2 ^ k) 20000 + 250)
    ∧ ((∀ n, ∃ e, p n = .error e ∧ retriable e = true) →
        (embedWithRetries p M j).attempts = M ∧
        ∃ e, p M = .error e ∧ (embedWithRetries p M j).outcome = .err e) := by
  refine ⟨?_, ?_, ?_, ?_⟩
  · have := embedRetriesGo_attempts_le (p := p) (M := M) (j := j) M 1 1000 (by omega)
    show (embedRetriesGo p M j 1 1000 M).attempts ≤ M
    omega
  · intro a d r e hr he hne
    obtain ⟨r', rfl⟩ : ∃ r', r = r' + 1 := ⟨r - 1, by omega⟩
    simp only [embedRetriesGo, he]
    rw [if_neg (by simp [hne])]
  · intro k w hw
    have hw' : (embedRetriesGo p M j 1 1000 M).waits[k]? = some w := hw
    have hk : k < (embedRetriesGo p M j 1 1000 M).waits.length := by
      by_contra hkn
      rw [List.getElem?_eq_none (by omega)] at hw'
      cases hw'
    have heq := embedRetriesGo_waits_get (p := p) (M := M) (j := j) M 1 1000 (by omega) k hk
    rw [hw'] at heq
    have hwv : w = min (1000 * 2 ^ k) 20000 + j (1 + k) := Option.some.inj heq
    have hjk := hj (1 + k)
    omega
  · intro hp
    exact embedRetriesGo_transient hp M 1 1000 (by omega) (by omega)

/-- Provider stub that always fails with HTTP status 429. -/
def alwaysRateLimited : Nat → Except ProviderError (List Vec) :=
  fun _ => .error { status := some 429, code := none }

/-- C5 witness: with the default `MAX_RETRIES = 6` and an
always-rate-limited provider, exactly 6 attempts are made and the last
429 error is raised. -/
theorem embedWithRetries_policy_witness :
    (embedWithRetries alwaysRateLimited MAX_RETRIES (fun _ => 0)).attempts = MAX_RETRIES ∧
    ∃ e, alwaysRateLimited MAX_RETRIES = .error e ∧
      (embedWithRetries alwaysRateLimited MAX_RETRIES (fun _ => 0)).outcome = .err e :=
  (embedWithRetries_policy alwaysRateLimited MAX_RETRIES (fun _ => 0) (by decide)
      (fun n => by norm_num)).2.2.2
    (fun n => ⟨{ status := some 429, code := none }, rfl, by decide⟩)

/-! Provider failover (`embedBatch`, source lines 137-164). -/

/-- Default OpenAI embedding model (source line 26). -/
def DEFAULT_OPENAI_MODEL : String := "text-embedding-3-small"

/-- Default OpenRouter embedding model (source line 27). -/
def DEFAULT_OPENROUTER_MODEL : String := "jinaai/jina-embeddings-v3"

/-- Embedding configuration: the chosen `EMB_PROVIDER`, which
credentials are present (`makeOpenAIClient` / `makeOpenRouterClient`
return null without the corresponding key, source lines 93-107), and
`EMB_MODEL`. -/
structure EmbedConfig where
  embProvider : String
  openaiConfigured : Bool
  openrouterConfigured : Bool
  embModel : String

/-- Translation of the `tryOrder` construction in `embedBatch` (source
lines 138-149): each element is a (provider name, model) pair; the
configured primary comes first with `EMB_MODEL`, the other provider is
appended with its own default model if its credential is configured. -/
def tryOrder (cfg : EmbedConfig) : List (String × String) :=
  if cfg.embProvider = "openai" then
    (if cfg.openaiConfigured then [("openai", cfg.embModel)] else []) ++
    (if cfg.openrouterConfigured then [("openrouter", DEFAULT_OPENROUTER_MODEL)] else [])
  else
    (if cfg.openrouterConfigured then [("openrouter", cfg.embModel)] else []) ++
    (if cfg.openaiConfigured then [("openai", DEFAULT_OPENAI_MODEL)] else [])

/-- Result of `embedBatch`: success, the thrown configuration error
("No embedding provider configured", source line 151), or the last
provider failure rethrown (source line 163). -/
inductive BatchOutcome
  | ok (vecs : List Vec)
  | configError
  | failed (o : EmbedOutcome)
deriving DecidableEq

/-- Loop of `embedBatch` over `tryOrder` (source lines 154-163): try
each provider with `embedWithRetries`; return the first success; record
each failure in `lastErr`; after the loop throw `lastErr`.  `behave`
gives a provider's response for a (name, model) pair and an attempt
number. -/
def embedBatchGo (behave : String → String → Nat → Except ProviderError (List Vec))
    (M : Nat) (j : Nat → Nat) :
    List (String × String) → EmbedOutcome → BatchOutcome
  | [], last => .failed last
  | (name, model) :: rest, _ =>
    match (embedWithRetries (behave name model) M j).outcome with
    | .ok v => .ok v
    | o => embedBatchGo behave M j rest o

/-- Translation of `embedBatch(texts)` (source lines 137-164).  The
initial accumulator is irrelevant: the loop body overwrites it before
the empty-list case can be reached, because `tryOrder` is checked to be
non-empty first (source lines 150-152). -/
def embedBatch (cfg : EmbedConfig)
    (behave : String → String → Nat → Except ProviderError (List Vec))
    (M : Nat) (j : Nat → Nat) : BatchOutcome :=
  match tryOrder cfg with
  | [] => .configError
  | pair :: rest => embedBatchGo behave M j (pair :: rest) .exhausted

theorem embedBatchGo_cons_err
    {behave : String → String → Nat → Except ProviderError (List Vec)}
    {M : Nat} {j : Nat → Nat} {name model : String} {rest : List (String × String)}
    {last : EmbedOutcome} {e : ProviderError}
    (h : (embedWithRetries (behave name model) M j).outcome = .err e) :
    embedBatchGo behave M j ((name, model) :: rest) last =
      embedBatchGo behave M j rest (.err e) := by
  show (match (embedWithRetries (behave name model) M j).outcome with
        | .ok v => BatchOutcome.ok v
        | o => embedBatchGo behave M j rest o) =
      embedBatchGo behave M j rest (.err e)
  rw [h]

theorem embedBatchGo_cons_ok
    {behave : String → String → Nat → Except ProviderError (List Vec)}
    {M : Nat} {j : Nat → Nat} {name model : String} {rest : List (String × String)}
    {last : EmbedOutcome} {v : List Vec}
    (h : (embedWithRetries (behave name model) M j).outcome = .ok v) :
    embedBatchGo behave M j ((name, model) :: rest) last = .ok v := by
  show (match (embedWithRetries (behave name model) M j).outcome with
        | .ok v => BatchOutcome.ok v
        | o => embedBatchGo behave M j rest o) = .ok v
  rw [h]

/-- Configuration with both credentials present, `EMB_PROVIDER` set to
`primary` and `EMB_MODEL` set to `m`. -/
def bothKeys (primary m : String) : EmbedConfig :=
  { embProvider := primary, openaiConfigured := true, openrouterConfigured := true, embModel := m }

/-- C6: `embedBatch` tries the configured primary first with
`EMB_MODEL` and then the other provider, only if its credential is
configured, with that provider's own default model; with no credential
at all it fails with the configuration error without consulting any
provider behaviour; if every configured provider fails transiently the
last provider's error (its failure at attempt `MAX_RETRIES`) is
propagated; and if the primary always fails transiently while the
configured secondary succeeds, the secondary's vectors are returned. -/
theorem embedBatch_failover (behave : String → String → Nat → Except ProviderError (List Vec))
    (M : Nat) (j : Nat → Nat) (m : String) (hM : 1 ≤ M) :
    (tryOrder (bothKeys "openai" m) =
      [("openai", m), ("openrouter", DEFAULT_OPENROUTER_MODEL)]
      ∧ tryOrder (bothKeys "openrouter" m) =
        [("openrouter", m), ("openai", DEFAULT_OPENAI_MODEL)])
    ∧ (∀ (cfg : EmbedConfig), cfg.openaiConfigured = false →
        cfg.openrouterConfigured = false →
        embedBatch cfg behave M j = .configError)
    ∧ ((∀ n, ∃ e, behave "openai" m n = .error e ∧ retriable e = true) →
        (∀ n, ∃ e, behave "openrouter" DEFAULT_OPENROUTER_MODEL n = .error e ∧
            retriable e = true) →
        ∃ e, behave "openrouter" DEFAULT_OPENROUTER_MODEL M = .error e ∧
          embedBatch (bothKeys "openai" m) behave M j = .failed (.err e))
    ∧ ((∀ n, ∃ e, behave "openai" m n = .error e ∧ retriable e = true) →
        ∀ v, behave "openrouter" DEFAULT_OPENROUTER_MODEL 1 = .ok v →
        embedBatch (bothKeys "openai" m) behave M j = .ok v) := by
  have horder : tryOrder (bothKeys "openai" m) =
      [("openai", m), ("openrouter", DEFAULT_OPENROUTER_MODEL)] := by
    simp [tryOrder, bothKeys]
  refine ⟨⟨horder, by simp [tryOrder, bothKeys]⟩, ?_, ?_, ?_⟩
  · intro cfg h1 h2
    have ht : tryOrder cfg = [] := by
      simp [tryOrder, h1, h2]
    rw [embedBatch, ht]
  · intro hP hS
    have hprim := embedRetriesGo_transient (p := behave "openai" m) (M := M) (j := j)
      hP M 1 1000 (by omega) (by omega)
    obtain ⟨_, e₁, he₁, hout₁⟩ := hprim
    have hsec := embedRetriesGo_transient (p := behave "openrouter" DEFAULT_OPENROUTER_MODEL)
      (M := M) (j := j) hS M 1 1000 (by omega) (by omega)
    obtain ⟨_, e₂, he₂, hout₂⟩ := hsec
    refine ⟨e₂, he₂, ?_⟩
    rw [embedBatch, horder]
    show embedBatchGo behave M j [("openai", m), ("openrouter", DEFAULT_OPENROUTER_MODEL)]
      .exhausted = .failed (.err e₂)
    rw [embedBatchGo_cons_err hout₁, embedBatchGo_cons_err hout₂]
    rfl
  · intro hP v hv
    have hprim := embedRetriesGo_transient (p := behave "openai" m) (M := M) (j := j)
      hP M 1 1000 (by omega) (by omega)
    obtain ⟨_, e₁, he₁, hout₁⟩ := hprim
    rw [embedBatch, horder]
    show embedBatchGo behave M j [("openai", m), ("openrouter", DEFAULT_OPENROUTER_MODEL)]
      .exhausted = .ok v
    obtain ⟨r', hr'⟩ : ∃ r', M = r' + 1 := ⟨M - 1, by omega⟩
    have hok : (embedWithRetries (behave "openrouter" DEFAULT_OPENROUTER_MODEL) M j).outcome
        = .ok v := by
      rw [embedWithRetries, hr']
      simp only [embedRetriesGo, hv]
    rw [embedBatchGo_cons_err hout₁, embedBatchGo_cons_ok hok]

/-- Behaviour stub for the C6 witness: the OpenAI provider is always
rate-limited, the OpenRouter provider succeeds at once with a single
vector per call. -/
def failoverBehave : String → String → Nat → Except ProviderError (List Vec) :=
  fun name _ _ =>
    if name = "openai" then .error { status := some 429, code := none }
    else .ok [([1] : List Int)]

/-- C6 witness: with the always-rate-limited primary and a succeeding
secondary, `embedBatch` returns the secondary's vectors. -/
theorem embedBatch_failover_witness :
    embedBatch (bothKeys "openai" "text-embedding-3-small")
      failoverBehave MAX_RETRIES (fun _ => 0) = .ok [([1] : List Int)] :=
  (embedBatch_failover failoverBehave MAX_RETRIES (fun _ => 0)
      "text-embedding-3-small" (by decide)).2.2.2
    (fun n => ⟨{ status := some 429, code := none }, rfl, by decide⟩)
    [([1] : List Int)] rfl

/-! Ingestion orchestrator (`main`, source lines 167-226).  The
I/O-performing collaborators are abstracted: `hash` stands for
`sha256` (source lines 36-38), `extract` for `extractPdfText` (source
lines 77-90), `embed` for one `embedBatch` network call (its error type
`ε` is kept abstract).  The list `files` stands for the (relative path,
bytes) pairs the glob discovers; outputs (`knowledge.json`, the cache
file) exist only in the `.ok` result, mirroring that the source writes
both files only after the loop over all files completes (source lines
217-218) and that any thrown error instead reaches the
`main().catch` handler, which exits non-zero (source lines 223-226). -/

/-- Cache entry for one source file (source line 200):
`{hash, count, embeddings}`. -/
structure CacheEntry where
  hash : String
  count : Nat
  embeddings : List Vec

/-- The `cache.files` mapping from relative path to entry (source
lines 55-62, 188). -/
def CacheMap : Type := String → Option CacheEntry

/-- Upsert of `cache.files[rel] = entry` (source line 200). -/
def cacheUpdate (cache : CacheMap) (rel : String) (entry : CacheEntry) : CacheMap :=
  fun k => if k = rel then some entry else cache k

/-- The empty cache `{files: \x7b\x7d}` used when the cache file is
missing or corrupt (source lines 59-61). -/
def emptyCache : CacheMap := fun _ => none

/-- One chunk record of the output index (source lines 207-214). -/
structure IndexChunk where
  id : String
  source : String
  text : List Char
  embedding : Option Vec

/-- The output index (source lines 176-177): model, dimension (the
constant 1536) and the chunk list. -/
structure KnowledgeIndex where
  model : String
  dimension : Nat
  chunks : List IndexChunk

/-- Batch loop of the embed branch (source lines 194-199): slice
`pieces` into `BATCH_SIZE`-sized batches, call `embedBatch` once per
batch, concatenate the vectors.  The second component counts the
`embedBatch` calls made.  Structural fuel: with fuel at least the list
length every batch is processed (each step drops at least one element
for `B >= 1`). -/
def embedInBatchesGo {ε : Type} (embed : List (List Char) → Except ε (List Vec)) (B : Nat) :
    Nat → List (List Char) → Except ε (List Vec × Nat)
  | _, [] => .ok ([], 0)
  | 0, _ :: _ => .ok ([], 0)
  | fuel + 1, t :: ts =>
    match embed ((t :: ts).take B) with
    | .error e => .error e
    | .ok vecs =>
      match embedInBatchesGo embed B fuel ((t :: ts).drop B) with
      | .error e => .error e
      | .ok (vs, n) => .ok (vecs ++ vs, n + 1)

/-- Batch-embedding of one file's pieces (source lines 194-199),
with fuel set to the piece count. -/
def embedInBatches {ε : Type} (embed : List (List Char) → Except ε (List Vec)) (B : Nat)
    (pieces : List (List Char)) : Except ε (List Vec × Nat) :=
  embedInBatchesGo embed B pieces.length pieces

/-- Instrumented result of processing one file inside the `main` loop:
the chunk texts, the embeddings used for them, the cache after the
file, the number of `embedBatch` calls made, and whether the cached
branch (source lines 202-205) was taken. -/
structure FileResult where
  texts : List (List Char)
  embeddings : List Vec
  cache : CacheMap
  embedCalls : Nat
  usedCache : Bool

/-- The `needEmbed` branch of the loop body (source lines 192-201):
embed all batches and upsert the cache entry
`{hash: fileHash, count: pieces.length, embeddings}`. -/
def embedAndStore {ε : Type} (embed : List (List Char) → Except ε (List Vec)) (B : Nat)
    (cache : CacheMap) (rel fileHash : String) (pieces : List (List Char)) :
    Except ε FileResult :=
  match embedInBatches embed B pieces with
  | .error e => .error e
  | .ok (vecs, calls) =>
    .ok { texts := pieces, embeddings := vecs,
          cache := cacheUpdate cache rel
            { hash := fileHash, count := pieces.length, embeddings := vecs },
          embedCalls := calls, usedCache := false }

/-- Body of the per-file loop (source lines 180-205).  The source
computes `needEmbed = !already || already.hash !== fileHash ||
already.count !== pieces.length` (line 189); by De Morgan the cached
branch is taken exactly when an entry exists with matching hash and
matching count.  Extraction and chunking happen before the test, as in
the source (lines 185-186), which is visible here in the `texts` field
always holding the freshly chunked text. -/
def processFile {ε : Type} (hash : Bytes → String) (extract : Bytes → List Char)
    (embed : List (List Char) → Except ε (List Vec)) (S O B : Nat)
    (cache : CacheMap) (rel : String) (bytes : Bytes) : Except ε FileResult :=
  match cache rel with
  | some a =>
    if a.hash = hash bytes ∧ a.count = (chunkText (cleanText (extract bytes)) S O).length then
      .ok { texts := chunkText (cleanText (extract bytes)) S O,
            embeddings := a.embeddings, cache := cache, embedCalls := 0, usedCache := true }
    else
      embedAndStore embed B cache rel (hash bytes) (chunkText (cleanText (extract bytes)) S O)
  | none =>
    embedAndStore embed B cache rel (hash bytes) (chunkText (cleanText (extract bytes)) S O)

/-- Index chunks appended for one file (source lines 207-214): ids are
`"c" ++ idCounter` with the global counter starting at `ctr` for this
file, `source` is the relative path, `embedding` is `embeddings[i]`
(`none` standing for JS `undefined` when the embeddings list is too
short). -/
def buildChunks (rel : String) (pieces : List (List Char)) (vecs : List Vec) (ctr : Nat) :
    List IndexChunk :=
  (List.range pieces.length).map fun i =>
    { id := "c" ++ toString (ctr + i), source := rel,
      text := pieces.getD i [], embedding := vecs[i]? }

/-- The `for (const abs of pdfPaths)` loop of `main` (source lines
180-215), threading the cache and the global id counter; returns the
accumulated index chunks, the final cache and the total number of
`embedBatch` calls. -/
def mainLoop {ε : Type} (hash : Bytes → String) (extract : Bytes → List Char)
    (embed : List (List Char) → Except ε (List Vec)) (S O B : Nat) :
    List (String × Bytes) → CacheMap → Nat →
      Except ε (List IndexChunk × CacheMap × Nat)
  | [], cache, _ => .ok ([], cache, 0)
  | (rel, bytes) :: rest, cache, ctr =>
    match processFile hash extract embed S O B cache rel bytes with
    | .error e => .error e
    | .ok r =>
      match mainLoop hash extract embed S O B rest r.cache (ctr + r.texts.length) with
      | .error e => .error e
      | .ok (chunks, cacheF, calls) =>
        .ok (buildChunks rel r.texts r.embeddings ctr ++ chunks, cacheF,
          r.embedCalls + calls)

/-- Translation of `main` (source lines 167-221): run the loop with the
loaded cache and `idCounter = 1`, then assemble the index
`{model: EMB_MODEL, dimension: 1536, chunks}`.  An `.ok` result stands
for the run that writes both output files; an `.error` result stands
for the run aborting through `main().catch` with no file written. -/
def ingestMain {ε : Type} (hash : Bytes → String) (extract : Bytes → List Char)
    (embed : List (List Char) → Except ε (List Vec)) (S O B : Nat) (embModel : String)
    (files : List (String × Bytes)) (cache₀ : CacheMap) :
    Except ε (KnowledgeIndex × CacheMap × Nat) :=
  match mainLoop hash extract embed S O B files cache₀ 1 with
  | .error e => .error e
  | .ok (chunks, cache, calls) =>
    .ok ({ model := embModel, dimension := 1536, chunks := chunks }, cache, calls)

/-- Cache validity for a path: a stored entry exists with matching hash
and matching chunk count (the negation of `needEmbed`, source
line 189). -/
def validEntry (cache : CacheMap) (rel fileHash : String) (count : Nat) : Prop :=
  ∃ a, cache rel = some a ∧ a.hash = fileHash ∧ a.count = count

section OrchestratorLemmas

variable {ε : Type} {hash : Bytes → String} {extract : Bytes → List Char}
variable {embed : List (List Char) → Except ε (List Vec)} {S O B : Nat}

theorem embedAndStore_ok {cache : CacheMap} {rel fileHash : String}
    {pieces : List (List Char)} {r : FileResult}
    (h : embedAndStore embed B cache rel fileHash pieces = .ok r) :
    r.texts = pieces ∧ r.usedCache = false ∧
      r.cache = cacheUpdate cache rel
        { hash := fileHash, count := pieces.length, embeddings := r.embeddings } := by
  unfold embedAndStore at h
  cases hm : embedInBatches embed B pieces with
  | error e => rw [hm] at h; cases h
  | ok p =>
    obtain ⟨vecs, calls⟩ := p
    rw [hm] at h
    injection h with h'
    subst h'
    exact ⟨rfl, rfl, rfl⟩

theorem processFile_split (hash : Bytes → String) (extract : Bytes → List Char)
    (embed : List (List Char) → Except ε (List Vec)) (S O B : Nat)
    (cache : CacheMap) (rel : String) (bytes : Bytes) :
    (∃ a, cache rel = some a ∧ a.hash = hash bytes ∧
        a.count = (chunkText (cleanText (extract bytes)) S O).length ∧
        processFile hash extract embed S O B cache rel bytes =
          .ok { texts := chunkText (cleanText (extract bytes)) S O,
                embeddings := a.embeddings, cache := cache,
                embedCalls := 0, usedCache := true })
    ∨ (¬ validEntry cache rel (hash bytes) (chunkText (cleanText (extract bytes)) S O).length ∧
        processFile hash extract embed S O B cache rel bytes =
          embedAndStore embed B cache rel (hash bytes)
            (chunkText (cleanText (extract bytes)) S O)) := by
  cases hca : cache rel with
  | none =>
    right
    constructor
    · rintro ⟨a, ha, _⟩
      rw [hca] at ha
      cases ha
    · unfold processFile
      rw [hca]
  | some a =>
    by_cases hcond : a.hash = hash bytes ∧
        a.count = (chunkText (cleanText (extract bytes)) S O).length
    · left
      refine ⟨a, rfl, hcond.1, hcond.2, ?_⟩
      unfold processFile
      rw [hca]
      exact if_pos hcond
    · right
      constructor
      · rintro ⟨a', ha', h1, h2⟩
        rw [hca] at ha'
        have : a = a' := Option.some.inj ha'
        subst this
        exact hcond ⟨h1, h2⟩
      · unfold processFile
        rw [hca]
        exact if_neg hcond

theorem processFile_ok_texts {cache : CacheMap} {rel : String} {bytes : Bytes}
    {r : FileResult}
    (hr : processFile hash extract embed S O B cache rel bytes = .ok r) :
    r.texts = chunkText (cleanText (extract bytes)) S O := by
  rcases processFile_split hash extract embed S O B cache rel bytes with
    ⟨a, _, _, _, heq⟩ | ⟨_, heq⟩
  · rw [heq] at hr
    injection hr with h'
    subst h'
    rfl
  · rw [heq] at hr
    exact (embedAndStore_ok hr).1

theorem processFile_cache_self {cache : CacheMap} {rel : String} {bytes : Bytes}
    {r : FileResult}
    (hr : processFile hash extract embed S O B cache rel bytes = .ok r) :
    ∃ a, r.cache rel = some a ∧ a.hash = hash bytes ∧
      a.count = (chunkText (cleanText (extract bytes)) S O).length ∧
      a.embeddings = r.embeddings := by
  rcases processFile_split hash extract embed S O B cache rel bytes with
    ⟨a, hca, hh, hc, heq⟩ | ⟨_, heq⟩
  · rw [heq] at hr
    injection hr with h'
    subst h'
    exact ⟨a, hca, hh, hc, rfl⟩
  · rw [heq] at hr
    obtain ⟨htexts, _, hcache⟩ := embedAndStore_ok hr
    refine ⟨{ hash := hash bytes,
              count := (chunkText (cleanText (extract bytes)) S O).length,
              embeddings := r.embeddings }, ?_, rfl, rfl, rfl⟩
    rw [hcache]
    simp [cacheUpdate]

theorem processFile_cache_other {cache : CacheMap} {rel : String} {bytes : Bytes}
    {r : FileResult}
    (hr : processFile hash extract embed S O B cache rel bytes = .ok r)
    (k : String) (hk : k ≠ rel) : r.cache k = cache k := by
  rcases processFile_split hash extract embed S O B cache rel bytes with
    ⟨a, _, _, _, heq⟩ | ⟨_, heq⟩
  · rw [heq] at hr
    injection hr with h'
    subst h'
    rfl
  · rw [heq] at hr
    obtain ⟨_, _, hcache⟩ := embedAndStore_ok hr
    rw [hcache]
    simp [cacheUpdate, hk]

theorem processFile_of_valid {cache : CacheMap} {rel : String} {bytes : Bytes}
    {a : CacheEntry} (hca : cache rel = some a) (hh : a.hash = hash bytes)
    (hc : a.count = (chunkText (cleanText (extract bytes)) S O).length) :
    processFile hash extract embed S O B cache rel bytes =
      .ok { texts := chunkText (cleanText (extract bytes)) S O,
            embeddings := a.embeddings, cache := cache,
            embedCalls := 0, usedCache := true } := by
  rcases processFile_split hash extract embed S O B cache rel bytes with
    ⟨a', hca', _, _, heq⟩ | ⟨hnv, _⟩
  · have : a' = a := Option.some.inj (hca'.symm.trans hca)
    subst this
    exact heq
  · exact absurd ⟨a, hca, hh, hc⟩ hnv

theorem mainLoop_cache_other :
    ∀ (files : List (String × Bytes)) (cache : CacheMap) (ctr : Nat)
      (chunks : List IndexChunk) (cacheF : CacheMap) (calls : Nat),
      mainLoop hash extract embed S O B files cache ctr = .ok (chunks, cacheF, calls) →
      ∀ k, k ∉ files.map Prod.fst → cacheF k = cache k := by
  intro files
  induction files with
  | nil =>
    intro cache ctr chunks cacheF calls h k hk
    simp only [mainLoop] at h
    injection h with h'
    simp only [Prod.mk.injEq] at h'
    obtain ⟨_, h2, _⟩ := h'
    rw [← h2]
  | cons hd rest ih =>
    intro cache ctr chunks cacheF calls h k hk
    obtain ⟨rel, bytes⟩ := hd
    simp only [List.map_cons, List.mem_cons] at hk
    push_neg at hk
    obtain ⟨hk1, hk2⟩ := hk
    simp only [mainLoop] at h
    cases hpf : processFile hash extract embed S O B cache rel bytes with
    | error e =>
      simp only [hpf] at h
      cases h
    | ok r =>
      simp only [hpf] at h
      cases hml : mainLoop hash extract embed S O B rest r.cache (ctr + r.texts.length) with
      | error e =>
        simp only [hml] at h
        cases h
      | ok out =>
        obtain ⟨chunksR, cacheR, callsR⟩ := out
        simp only [hml] at h
        injection h with h'
        simp only [Prod.mk.injEq] at h'
        obtain ⟨_, h2, _⟩ := h'
        rw [← h2]
        rw [ih r.cache (ctr + r.texts.length) chunksR cacheR callsR hml k hk2]
        exact processFile_cache_other hpf k hk1

theorem mainLoop_idempotent :
    ∀ (files : List (String × Bytes)) (cache : CacheMap) (ctr : Nat)
      (chunks : List IndexChunk) (cacheF : CacheMap) (calls : Nat),
      (files.map Prod.fst).Nodup →
      mainLoop hash extract embed S O B files cache ctr = .ok (chunks, cacheF, calls) →
      mainLoop hash extract embed S O B files cacheF ctr = .ok (chunks, cacheF, 0) := by
  intro files
  induction files with
  | nil =>
    intro cache ctr chunks cacheF calls hnd h
    simp only [mainLoop] at h ⊢
    injection h with h'
    simp only [Prod.mk.injEq] at h'
    obtain ⟨h1, h2, _⟩ := h'
    rw [← h1, ← h2]
  | cons hd rest ih =>
    intro cache ctr chunks cacheF calls hnd h
    obtain ⟨rel, bytes⟩ := hd
    simp only [List.map_cons, List.nodup_cons] at hnd
    obtain ⟨hrel, hndR⟩ := hnd
    simp only [mainLoop] at h
    cases hpf : processFile hash extract embed S O B cache rel bytes with
    | error e =>
      simp only [hpf] at h
      cases h
    | ok r =>
      simp only [hpf] at h
      cases hml : mainLoop hash extract embed S O B rest r.cache (ctr + r.texts.length) with
      | error e =>
        simp only [hml] at h
        cases h
      | ok out =>
        obtain ⟨chunksR, cacheR, callsR⟩ := out
        simp only [hml] at h
        injection h with h'
        simp only [Prod.mk.injEq] at h'
        obtain ⟨h1, h2, _⟩ := h'
        -- facts about the run-1 head
        obtain ⟨a, haself, hh, hc, hemb⟩ := processFile_cache_self hpf
        have hpreserve : cacheR rel = r.cache rel :=
          mainLoop_cache_other rest r.cache (ctr + r.texts.length)
            chunksR cacheR callsR hml rel hrel
        have hca : cacheR rel = some a := hpreserve.trans haself
        -- run-2 head takes the cached branch
        have hpf₂ := @processFile_of_valid ε hash extract embed S O B cacheR rel bytes a
          hca hh hc
        -- run-2 tail is idempotent, starting from the same counter
        have htexts : r.texts = chunkText (cleanText (extract bytes)) S O :=
          processFile_ok_texts hpf
        have hml₂ := ih r.cache (ctr + r.texts.length) chunksR cacheR callsR hndR hml
        rw [htexts] at hml₂
        subst h2
        simp only [mainLoop, hpf₂, hml₂]
        rw [← h1, htexts, hemb]

end OrchestratorLemmas

/-- C1: for every discovered file, extraction and chunking are
performed unconditionally — the emitted chunk texts always are the
chunks of the currently extracted text, also on a cache hit — and the
embedding step is skipped (the cached branch taken) iff the loaded
cache holds an entry for the file's relative path whose hash equals the
hash of the current bytes and whose count equals the chunk count the
chunker currently produces; when skipped, zero embedding calls are made,
the cache is unchanged and the stored embeddings are reused. -/
theorem processFile_cache_policy {ε : Type} (hash : Bytes → String)
    (extract : Bytes → List Char) (embed : List (List Char) → Except ε (List Vec))
    (S O B : Nat) (cache : CacheMap) (rel : String) (bytes : Bytes) :
    (∀ r, processFile hash extract embed S O B cache rel bytes = .ok r →
        r.texts = chunkText (cleanText (extract bytes)) S O)
    ∧ (validEntry cache rel (hash bytes) (chunkText (cleanText (extract bytes)) S O).length ↔
        ∃ r, processFile hash extract embed S O B cache rel bytes = .ok r ∧
          r.usedCache = true)
    ∧ (∀ r, processFile hash extract embed S O B cache rel bytes = .ok r →
        r.usedCache = true →
        r.embedCalls = 0 ∧ r.cache = cache ∧
          ∃ a, cache rel = some a ∧ r.embeddings = a.embeddings) := by
  refine ⟨?_, ?_, ?_⟩
  · intro r hr
    exact processFile_ok_texts hr
  · constructor
    · rintro ⟨a, hca, hh, hc⟩
      have heq := @processFile_of_valid ε hash extract embed S O B cache rel bytes a
        hca hh hc
      exact ⟨_, heq, rfl⟩
    · rintro ⟨r, hr, hu⟩
      rcases processFile_split hash extract embed S O B cache rel bytes with
        ⟨a, hca, hh, hc, heq⟩ | ⟨hnv, heq⟩
      · exact ⟨a, hca, hh, hc⟩
      · rw [heq] at hr
        have hfalse := (embedAndStore_ok hr).2.1
        rw [hu] at hfalse
        exact Bool.noConfusion hfalse
  · intro r hr hu
    rcases processFile_split hash extract embed S O B cache rel bytes with
      ⟨a, hca, hh, hc, heq⟩ | ⟨hnv, heq⟩
    · rw [heq] at hr
      injection hr with h'
      subst h'
      exact ⟨rfl, rfl, a, hca, rfl⟩
    · rw [heq] at hr
      have hfalse := (embedAndStore_ok hr).2.1
      rw [hu] at hfalse
      exact Bool.noConfusion hfalse

/-- C2: running the ingestion twice over the same unchanged file list
(with the cache produced by the first run given to the second) yields
the identical output index, the identical cache, and zero embedding
calls on the second run. -/
theorem ingest_idempotent {ε : Type} (hash : Bytes → String) (extract : Bytes → List Char)
    (embed : List (List Char) → Except ε (List Vec)) (S O B : Nat) (m : String)
    (files : List (String × Bytes)) (cache₀ : CacheMap)
    (idx : KnowledgeIndex) (cache₁ : CacheMap) (calls : Nat)
    (hnd : (files.map Prod.fst).Nodup)
    (h : ingestMain hash extract embed S O B m files cache₀ = .ok (idx, cache₁, calls)) :
    ingestMain hash extract embed S O B m files cache₁ = .ok (idx, cache₁, 0) := by
  unfold ingestMain at h ⊢
  cases hml : mainLoop hash extract embed S O B files cache₀ 1 with
  | error e =>
    simp only [hml] at h
    cases h
  | ok out =>
    obtain ⟨chunks, cacheF, calls'⟩ := out
    simp only [hml] at h
    injection h with h'
    simp only [Prod.mk.injEq] at h'
    obtain ⟨h1, h2, h3⟩ := h'
    subst h2
    subst h3
    have hml₂ := mainLoop_idempotent files cache₀ 1 chunks cacheF calls' hnd hml
    simp only [hml₂]
    rw [← h1]

/-- C7: a run over zero files completes with an index of zero chunks
and an unchanged cache, while a run whose first file needs embedding
and whose every embedding call fails aborts with that error — an
`.error` result of this embedding, i.e. the source reaches
`main().catch` and exits non-zero, with neither the index nor the
cache written, both writes happening only after the whole loop
(source lines 217-218). -/
theorem ingest_abort_or_empty {ε : Type} (hash : Bytes → String)
    (extract : Bytes → List Char) (embed : List (List Char) → Except ε (List Vec))
    (S O B : Nat) (m : String) :
    (∀ cache₀ : CacheMap,
        ingestMain hash extract embed S O B m [] cache₀ =
          .ok ({ model := m, dimension := 1536, chunks := [] }, cache₀, 0))
    ∧ (∀ (e : ε) (rel : String) (bytes : Bytes) (rest : List (String × Bytes)),
        (∀ ts, embed ts = .error e) → O < S → cleanText (extract bytes) ≠ [] →
        ingestMain hash extract embed S O B m ((rel, bytes) :: rest) emptyCache =
          .error e) := by
  constructor
  · intro cache₀
    rfl
  · intro e rel bytes rest hembed hOS htext
    obtain ⟨p, ps, hpieces⟩ : ∃ p ps,
        chunkText (cleanText (extract bytes)) S O = p :: ps := by
      cases hcp : chunkText (cleanText (extract bytes)) S O with
      | nil => exact absurd (chunkText_eq_nil_iff.mp hcp) htext
      | cons p ps => exact ⟨p, ps, rfl⟩
    have hbatch : embedInBatches embed B (p :: ps) = .error e := by
      show embedInBatchesGo embed B (p :: ps).length (p :: ps) = .error e
      simp only [List.length_cons]
      simp only [embedInBatchesGo, hembed]
    have hstore : embedAndStore embed B emptyCache rel (hash bytes)
        (chunkText (cleanText (extract bytes)) S O) = .error e := by
      rw [hpieces]
      unfold embedAndStore
      rw [hbatch]
    have hpf : processFile hash extract embed S O B emptyCache rel bytes = .error e := by
      have hnone : emptyCache rel = none := rfl
      unfold processFile
      rw [hnone]
      exact hstore
    have hml : mainLoop hash extract embed S O B ((rel, bytes) :: rest) emptyCache 1 =
        .error e := by
      simp only [mainLoop, hpf]
    simp only [ingestMain, hml]

/-- C9: the written index's `model` field is always the configured
`EMB_MODEL` of the current run (and its dimension the constant 1536),
and nothing else of the run depends on the model string: two runs
differing only in the model produce the same chunks, the same cache
and the same number of embedding calls.  Cache validity checks only
hash and chunk count — `CacheEntry` stores no model — so embeddings
reused from a cache written under a different model, or produced by
the failover provider's own default model, are still recorded under
the current `EMB_MODEL`. -/
theorem index_model_current {ε : Type} (hash : Bytes → String)
    (extract : Bytes → List Char) (embed : List (List Char) → Except ε (List Vec))
    (S O B : Nat) (m m₁ m₂ : String) (files : List (String × Bytes)) (cache₀ : CacheMap) :
    (∀ idx cacheF calls,
        ingestMain hash extract embed S O B m files cache₀ = .ok (idx, cacheF, calls) →
        idx.model = m ∧ idx.dimension = 1536)
    ∧ (∀ idx₁ cache₁ calls₁,
        ingestMain hash extract embed S O B m₁ files cache₀ = .ok (idx₁, cache₁, calls₁) →
        ingestMain hash extract embed S O B m₂ files cache₀ =
          .ok ({ model := m₂, dimension := 1536, chunks := idx₁.chunks }, cache₁, calls₁)) := by
  constructor
  · intro idx cacheF calls h
    unfold ingestMain at h
    cases hml : mainLoop hash extract embed S O B files cache₀ 1 with
    | error e =>
      simp only [hml] at h
      cases h
    | ok out =>
      obtain ⟨chunks, cacheF', calls'⟩ := out
      simp only [hml] at h
      injection h with h'
      simp only [Prod.mk.injEq] at h'
      obtain ⟨h1, _, _⟩ := h'
      rw [← h1]
      exact ⟨rfl, rfl⟩
  · intro idx₁ cache₁ calls₁ h
    unfold ingestMain at h ⊢
    cases hml : mainLoop hash extract embed S O B files cache₀ 1 with
    | error e =>
      simp only [hml] at h
      cases h
    | ok out =>
      obtain ⟨chunks, cacheF', calls'⟩ := out
      simp only [hml] at h
      injection h with h'
      simp only [Prod.mk.injEq] at h'
      obtain ⟨h1, h2, h3⟩ := h'
      subst h2
      subst h3
      simp only [hml]
      rw [← h1]

/-! Concrete fixtures for the orchestrator witnesses: one file
"a.pdf" whose extracted, cleaned text is "xyz", chunked with size 2 and
overlap 1 into the 3 pieces "xy", "yz", "z"; the embedding of a text is
the singleton vector holding its length. -/

/-- Bytes of the witness file. -/
def wBytes : Bytes := [1, 2]

/-- Hash collaborator of the witnesses: constant digest "h1". -/
def wHash : Bytes → String := fun _ => "h1"

/-- Extraction collaborator of the witnesses: always "xyz". -/
def wExtract : Bytes → List Char := fun _ => ['x', 'y', 'z']

/-- Embedding collaborator of the witnesses: maps each text to the
one-dimensional vector holding its length. -/
def wEmbed : List (List Char) → Except Unit (List Vec) :=
  fun ts => .ok (ts.map (fun t => [Int.ofNat t.length]))

/-- A cache already holding a valid entry for "a.pdf". -/
def wCache : CacheMap :=
  fun k =>
    if k = "a.pdf" then some { hash := "h1", count := 3, embeddings := [[2], [2], [1]] }
    else none

/-- The witness file list. -/
def wFiles : List (String × Bytes) := [("a.pdf", wBytes)]

/-- The chunks a run over `wFiles` produces. -/
def wChunks : List IndexChunk :=
  buildChunks "a.pdf" (chunkText (cleanText (wExtract wBytes)) 2 1) [[2], [2], [1]] 1

/-- The cache a run over `wFiles` from the empty cache produces. -/
def wCache1 : CacheMap :=
  cacheUpdate emptyCache "a.pdf" { hash := "h1", count := 3, embeddings := [[2], [2], [1]] }

/-- C1 witness: with a matching cache entry (hash "h1", count 3) the
cached branch is taken. -/
theorem processFile_cache_policy_witness :
    ∃ r, processFile wHash wExtract wEmbed 2 1 16 wCache "a.pdf" wBytes = .ok r ∧
      r.usedCache = true :=
  (processFile_cache_policy wHash wExtract wEmbed 2 1 16 wCache "a.pdf" wBytes).2.1.mp
    ⟨{ hash := "h1", count := 3, embeddings := [[2], [2], [1]] }, rfl, rfl, rfl⟩

/-- C2 witness: the second run over the unchanged witness file, with
the first run's cache, returns the identical index and cache with zero
embedding calls. -/
theorem ingest_idempotent_witness :
    ingestMain wHash wExtract wEmbed 2 1 16 "m" wFiles wCache1 =
      .ok ({ model := "m", dimension := 1536, chunks := wChunks }, wCache1, 0) :=
  ingest_idempotent wHash wExtract wEmbed 2 1 16 "m" wFiles emptyCache
    { model := "m", dimension := 1536, chunks := wChunks } wCache1 1
    (by decide) rfl

/-- Embedding collaborator that always fails. -/
def wEmbedFail : List (List Char) → Except Unit (List Vec) := fun _ => .error ()

/-- C7 witness: with an always-failing embedding provider and a fresh
cache, the run over the witness file aborts with the provider error. -/
theorem ingest_abort_or_empty_witness :
    ingestMain wHash wExtract wEmbedFail 2 1 16 "m" wFiles emptyCache = .error () :=
  (ingest_abort_or_empty wHash wExtract wEmbedFail 2 1 16 "m").2 () "a.pdf" wBytes []
    (fun ts => rfl) (by decide) (by decide)

/-- C9 witness: the index written by the witness run carries the
configured model "m" and dimension 1536. -/
theorem index_model_current_witness :
    ({ model := "m", dimension := 1536, chunks := wChunks } : KnowledgeIndex).model = "m" ∧
    ({ model := "m", dimension := 1536, chunks := wChunks } : KnowledgeIndex).dimension =
      1536 :=
  (index_model_current wHash wExtract wEmbed 2 1 16 "m" "m" "m2" wFiles emptyCache).1
    { model := "m", dimension := 1536, chunks := wChunks } wCache1 1 rfl

end Ingest
